import Mathlib

/-!
Shallow embedding of `src/gcam/util.py` (a Python 2 module of the
gcam-driver repository): the argument normalization, display-session and
temp-file lifecycle of `gcam_query`, the per-line rewriting of
`rewrite_query`, and the path helper `abspath`.  Python strings are
modelled as `List Char`.
-/

/-- A value passed for `batchqfiles` / `dbxmlfiles` / `outfiles` of
`gcam_query`: in the source each is either a single filename string or a
list of filename strings.  In Python 2 a `str` has no `__iter__`
attribute, so the source's test `hasattr(x, '__iter__')` is true exactly
for the list case. -/
inductive PyArg where
  | str (s : List Char)
  | list (l : List (List Char))
deriving DecidableEq

/-- A Python value sitting in one of the normalized lists: the elements
are strings on the intended paths, but the scalar-wrapping branch can put
a whole list inside (`[dbxmlfiles]*len(qlist)` with `dbxmlfiles` a list). -/
inductive PyObj where
  | str (s : List Char)
  | list (l : List (List Char))
deriving DecidableEq

/-- The Python object an argument denotes, unchanged. -/
def argObj : PyArg → PyObj
  | .str s => .str s
  | .list l => .list l

/-- The sequence test used for the database and output arguments
(source lines 133 and 140): `hasattr(x, '__iter__') and not
isinstance(batchqfiles, str)`.  The second conjunct tests `batchqfiles`,
not `x` itself — the embedding keeps the source's variable verbatim. -/
def pyIsSeqTest (x batchqfiles : PyArg) : Bool :=
  (match x with | .list _ => true | .str _ => false)
  && (match batchqfiles with | .str _ => false | .list _ => true)

/-- Argument normalization of `gcam_query` (source lines 128-147):
builds `qlist`, `dbxmllist`, `outlist` and raises
`RuntimeError("Mismatch in input lengths for gcam_query.")` (modelled as
`.error ()`) when `len(dbxmllist) != len(qlist) or len(outlist) !=
len(qlist)`.  A database list of length one is broadcast by list
repetition `dbxmllist*len(qlist)`; a scalar database is broadcast by
`[dbxmlfiles]*len(qlist)`; a scalar output is wrapped as `[outfiles]`
with no repetition. -/
def gcam_query_normalize (batchqfiles dbxmlfiles outfiles : PyArg) :
    Except Unit (List (List Char) × List PyObj × List PyObj) :=
  let qlist : List (List Char) :=
    match batchqfiles with
    | .list l => l
    | .str s => [s]
  let dbxmllist : List PyObj :=
    match dbxmlfiles, pyIsSeqTest dbxmlfiles batchqfiles with
    | .list l, true =>
      if l.length = 1 then ((List.replicate qlist.length l).flatten).map PyObj.str
      else l.map PyObj.str
    | x, _ => List.replicate qlist.length (argObj x)
  let outlist : List PyObj :=
    match outfiles, pyIsSeqTest outfiles batchqfiles with
    | .list l, true => l.map PyObj.str
    | x, _ => [argObj x]
  if dbxmllist.length ≠ qlist.length ∨ outlist.length ≠ qlist.length then
    .error ()
  else
    .ok (qlist, dbxmllist, outlist)

/-- Model of `random.jumpahead(os.getpid())` (source line 159): an
external pseudo-random state perturbed by the process identity. -/
def random_jumpahead (state pid : Nat) : Nat := state + pid

/-- Model of `random.randint(a, b)`: per the Python library contract the
draw is an integer in `[a, b]` inclusive; here the value is determined by
the PRNG state. -/
def random_randint (a b state : Nat) : Nat := a + state % (b + 1 - a)

/-- Display number selection of `gcam_query` (source lines 159-160):
`random.jumpahead(os.getpid()); disp = random.randint(1,1024)`. -/
def gcam_query_display (state pid : Nat) : Nat :=
  random_randint 1 1024 (random_jumpahead state pid)

/-- An error raised during a `gcam_query` run: the explicit
length-mismatch `RuntimeError`, or an error propagating from an external
operation (file system, subprocess), identified by a numeric code. -/
inductive PyErr where
  | runtimeMismatch
  | external (code : Nat)
deriving DecidableEq

/-- Behaviour of the external world for one batch item: whether
`rewrite_query` returns a temp file name or raises, whether
`subprocess.call` raises, and whether `os.unlink` raises. -/
structure ItemEnv where
  rewriteResult : Except Nat (List Char)
  invokeRaises : Option Nat
  unlinkRaises : Option Nat

/-- Observable events of a `gcam_query` run: starting/killing the `Xvfb`
display server, and per-item rewrite, engine invocation, temp deletion. -/
inductive Ev where
  | xvfbStart (disp : Nat)
  | rewriteEv (item : Nat)
  | invokeEv (item : Nat)
  | unlinkEv (item : Nat) (file : List Char)
  | xvfbKill
deriving DecidableEq

/-- One iteration of the query loop (source lines 170-183):
`tempquery = None; try: tempquery = rewrite_query(...);
subprocess.call(execlist) finally: if tempquery: os.unlink(tempquery)`.
If `rewrite_query` raises, `tempquery` is still `None`, so no deletion is
attempted.  Python `finally` semantics: an exception raised inside the
`finally` block replaces any in-flight exception. -/
def gcam_query_item (i : Nat) (env : ItemEnv) : List Ev × Option PyErr :=
  match env.rewriteResult with
  | .error e => ([Ev.rewriteEv i], some (PyErr.external e))
  | .ok name =>
    match env.unlinkRaises with
    | some e2 =>
      ([Ev.rewriteEv i, Ev.invokeEv i, Ev.unlinkEv i name],
        some (PyErr.external e2))
    | none =>
      ([Ev.rewriteEv i, Ev.invokeEv i, Ev.unlinkEv i name],
        env.invokeRaises.map PyErr.external)

/-- The `for (query, dbxml, output) in zip(...)` loop of `gcam_query`,
starting at item `i` with `n` items left: a raised error aborts the rest
of the loop and propagates. -/
def gcam_query_loop (beh : Nat → ItemEnv) : Nat → Nat → List Ev × Option PyErr
  | _, 0 => ([], none)
  | i, n + 1 =>
    let r := gcam_query_item i (beh i)
    match r.2 with
    | some e => (r.1, some e)
    | none =>
      let rest := gcam_query_loop beh (i + 1) n
      (r.1 ++ rest.1, rest.2)

/-- The whole of `gcam_query` (source lines 128-190): normalization and
the length check run before any external resource is touched; then `Xvfb`
is started, the item loop runs inside `try`, and `xvfb.kill()` in the
outer `finally` always runs exactly once (modelled as succeeding, so an
in-flight loop error keeps propagating). -/
def gcam_query_run (batchqfiles dbxmlfiles outfiles : PyArg)
    (rngState pid : Nat) (beh : Nat → ItemEnv) : List Ev × Option PyErr :=
  match gcam_query_normalize batchqfiles dbxmlfiles outfiles with
  | .error _ => ([], some PyErr.runtimeMismatch)
  | .ok (qlist, _, _) =>
    let disp := gcam_query_display rngState pid
    let loop := gcam_query_loop beh 0 qlist.length
    (Ev.xvfbStart disp :: loop.1 ++ [Ev.xvfbKill], loop.2)

/-- Leftmost index at which `p` occurs (as a prefix of the suffix of `s`
starting there), scanning positions left to right like the regex engine. -/
def strFind? (p : List Char) : List Char → Option Nat
  | [] => if p = [] then some 0 else none
  | c :: rest =>
    if p.isPrefixOf (c :: rest) then some 0
    else (strFind? p rest).map (· + 1)

/-- Rightmost index at which `p` occurs in `s`. -/
def strFindLast? (p : List Char) : List Char → Option Nat
  | [] => if p = [] then some 0 else none
  | c :: rest =>
    match strFindLast? p rest with
    | some i => some (i + 1)
    | none => if p.isPrefixOf (c :: rest) then some 0 else none

/-- Single-line `re.sub` for a greedy pattern `o.*c` as used by
`xmldbloc.sub` / `outfileloc.sub` (source lines 194-195 and 231-233): the
engine matches at the leftmost occurrence of `o`, extends `.*` greedily so
the match ends at the last occurrence of `c`, substitutes `repl`, then
continues scanning after the match (`.` cannot cross a newline; a line
read from a file has no interior newline). -/
def re_sub_tag_fuel (o c repl : List Char) : Nat → List Char → List Char
  | 0, s => s
  | fuel + 1, s =>
    match strFind? o s with
    | none => s
    | some i =>
      let rest := s.drop (i + o.length)
      match strFindLast? c rest with
      | none => s
      | some j =>
        s.take i ++ repl ++ re_sub_tag_fuel o c repl fuel (rest.drop (j + c.length))

/-- Full `re.sub` of a greedy `o.*c` pattern over a whole line. -/
def re_sub_tag (o c repl s : List Char) : List Char :=
  re_sub_tag_fuel o c repl (s.length + 1) s

/-- The literal `<xmldbLocation>` marker. -/
def xmldbOpen : List Char := "<xmldbLocation>".toList

/-- The literal `</xmldbLocation>` marker. -/
def xmldbClose : List Char := "</xmldbLocation>".toList

/-- The literal `<outFile>` marker. -/
def outFileOpen : List Char := "<outFile>".toList

/-- The literal `</outFile>` marker. -/
def outFileClose : List Char := "</outFile>".toList

/-- The literal `<queryFile>` marker. -/
def queryFileOpen : List Char := "<queryFile>".toList

/-- The literal `</queryFile>` marker. -/
def queryFileClose : List Char := "</queryFile>".toList

/-- Builds `dbxmlstr` as in source line 226: the open marker, the
database reference, the close marker. -/
def dbxmlstr (dbxml : List Char) : List Char := xmldbOpen ++ dbxml ++ xmldbClose

/-- Builds `outfilestr` as in source line 227: the open marker, the
output path, the close marker. -/
def outfilestr (outfile : List Char) : List Char :=
  outFileOpen ++ outfile ++ outFileClose

/-- Applies `xmldbloc.sub(dbxmlstr, line)` (source line 231). -/
def sub_xmldbloc (dbxml line : List Char) : List Char :=
  re_sub_tag xmldbOpen xmldbClose (dbxmlstr dbxml) line

/-- Applies `outfileloc.sub(outfilestr, line)` (source line 233). -/
def sub_outfileloc (outfile line : List Char) : List Char :=
  re_sub_tag outFileOpen outFileClose (outfilestr outfile) line

/-- Model of `posixpath.basename` (an external path helper): the part of
the path after its last slash. -/
def os_path_basename (p : List Char) : List Char :=
  (p.reverse.takeWhile (fun c => c != '/')).reverse

/-- Model of the two-argument `posixpath.join` (an external path helper). -/
def os_path_join (a b : List Char) : List Char :=
  if b.head? = some '/' then b
  else if a = [] ∨ a.getLast? = some '/' then a ++ b
  else a ++ '/' :: b

/-- Component processing of `posixpath.normpath`: drop empty and `.`
components, let `..` cancel a previous real component (except at an
absolute root or after an uncancelled `..`).  The accumulator holds the
kept components in reverse. -/
def normpath_fold (initial : Nat) : List (List Char) → List (List Char) → List (List Char)
  | acc, [] => acc.reverse
  | acc, comp :: rest =>
    if comp = [] ∨ comp = ['.'] then normpath_fold initial acc rest
    else if comp ≠ ['.', '.'] ∨ (initial = 0 ∧ acc = []) ∨ acc.head? = some ['.', '.'] then
      normpath_fold initial (comp :: acc) rest
    else if acc ≠ [] then normpath_fold initial acc.tail rest
    else normpath_fold initial acc rest

/-- Model of `posixpath.normpath` (an external path helper). -/
def os_path_normpath (p : List Char) : List Char :=
  if p = [] then ['.']
  else
    let initial : Nat :=
      if ['/', '/'].isPrefixOf p ∧ ¬ ['/', '/', '/'].isPrefixOf p then 2
      else if ['/'].isPrefixOf p then 1
      else 0
    let body := List.intercalate ['/'] (normpath_fold initial [] (p.splitOn '/'))
    let res := List.replicate initial '/' ++ body
    if res = [] then ['.'] else res

/-- Model of `os.path.abspath` (an external path helper): join onto the
current working directory and normalize. -/
def os_path_abspath (cwd p : List Char) : List Char :=
  os_path_normpath (os_path_join cwd p)

/-- The repository's `abspath` (source lines 276-300).  `filename[0]`
raises `IndexError` on an empty filename (modelled as `none`); otherwise:
a leading `/` passes the name through unchanged; a missing default path
or a `./` or `../` prefix resolves against the working directory `cwd`
via `os.path.abspath`; anything else joins onto the default path. -/
def abspath (filename : List Char) (defaultpath : Option (List Char))
    (cwd : List Char) : Option (List Char) :=
  match filename with
  | [] => none
  | f0 :: _ =>
    if f0 = '/' then some filename
    else
      match defaultpath with
      | none => some (os_path_abspath cwd filename)
      | some dp =>
        if ['.', '/'].isPrefixOf filename ∨ ['.', '.', '/'].isPrefixOf filename then
          some (os_path_abspath cwd filename)
        else some (os_path_join dp filename)

/-- The query-file branch of `rewrite_query` (source lines 237-245):
`re.search` for the greedy `<queryFile>(.*)</queryFile>` — the group runs
from the leftmost `<queryFile>` to the last `</queryFile>`; on a match
the whole line is replaced by `'<queryFile>%s</queryFile>' % qfile` with
`qfile = abspath(os.path.basename(group), defaultpath=inputdir)`.  An
`IndexError` raised by `abspath` propagates (`none`). -/
def sub_queryfile (inputdir cwd line : List Char) : Option (List Char) :=
  match strFind? queryFileOpen line with
  | none => some line
  | some i =>
    let rest := line.drop (i + queryFileOpen.length)
    match strFindLast? queryFileClose rest with
    | none => some line
    | some j =>
      let qfile_template := rest.take j
      let qfile := os_path_basename qfile_template
      match abspath qfile (some inputdir) cwd with
      | none => none
      | some q => some (queryFileOpen ++ q ++ queryFileClose)

/-- The per-line substitution of `rewrite_query` (source lines 229-245):
database-location sub, then output-file sub, then the query-file rewrite,
in that order on the same line. -/
def rewrite_query_line (dbxml outfile inputdir cwd line : List Char) :
    Option (List Char) :=
  sub_queryfile inputdir cwd (sub_outfileloc outfile (sub_xmldbloc dbxml line))

/-- Whether a line matches the greedy pattern `o.*c` at all: an
occurrence of `o` with an occurrence of `c` somewhere after it. -/
def matchesTag (o c s : List Char) : Bool :=
  match strFind? o s with
  | none => false
  | some i => (strFindLast? c (s.drop (i + o.length))).isSome

/-- Absence of any occurrence of `p` inside `s`. -/
abbrev NoOcc (p s : List Char) : Prop := ∀ i, ¬ p <+: s.drop i

/-! Specification lemmas for the two scanning functions. -/

theorem strFind?_eq_none_iff {p s : List Char} :
    strFind? p s = none ↔ ∀ i, ¬ p <+: s.drop i := by
  induction s with
  | nil =>
    by_cases hp : p = []
    · subst hp
      simp [strFind?]
    · simp [strFind?, hp, List.prefix_nil]
  | cons c rest ih =>
    by_cases hpre : p.isPrefixOf (c :: rest)
    · have hpre' : p <+: (c :: rest) := List.isPrefixOf_iff_prefix.mp hpre
      simp only [strFind?, if_pos hpre]
      constructor
      · intro h; cases h
      · intro h; exact absurd (by simpa using hpre') (h 0)
    · have hpre' : ¬ p <+: (c :: rest) :=
        fun h => hpre (List.isPrefixOf_iff_prefix.mpr h)
      simp only [strFind?, if_neg hpre]
      rw [Option.map_eq_none', ih]
      constructor
      · intro h i
        match i with
        | 0 => simpa using hpre'
        | Nat.succ j => simpa using h j
      · intro h j
        simpa using h (j + 1)

theorem strFind?_eq_some_iff {p s : List Char} {i : Nat} :
    strFind? p s = some i ↔ (p <+: s.drop i ∧ ∀ j, j < i → ¬ p <+: s.drop j) := by
  induction s generalizing i with
  | nil =>
    by_cases hp : p = []
    · subst hp
      constructor
      · intro h
        have hi : i = 0 := by simpa [strFind?] using h.symm
        subst hi
        exact ⟨by simp, fun j hj => absurd hj (by omega)⟩
      · rintro ⟨-, h2⟩
        have hi : i = 0 := by
          by_contra hne
          exact h2 0 (by omega) (by simp)
        subst hi
        simp [strFind?]
    · simp [strFind?, hp, List.prefix_nil]
  | cons c rest ih =>
    by_cases hpre : p.isPrefixOf (c :: rest)
    · have hpre' : p <+: (c :: rest) := List.isPrefixOf_iff_prefix.mp hpre
      simp only [strFind?, if_pos hpre]
      constructor
      · intro h
        obtain rfl : i = 0 := by simpa using h.symm
        exact ⟨by simpa using hpre', fun j hj => absurd hj (by omega)⟩
      · rintro ⟨h1, h2⟩
        rcases Nat.eq_zero_or_pos i with rfl | hpos
        · rfl
        · exact absurd (by simpa using hpre') (h2 0 hpos)
    · have hpre' : ¬ p <+: (c :: rest) :=
        fun h => hpre (List.isPrefixOf_iff_prefix.mpr h)
      simp only [strFind?, if_neg hpre]
      cases i with
      | zero =>
        constructor
        · intro h
          obtain ⟨a, _, hak⟩ := Option.map_eq_some'.mp h
          omega
        · rintro ⟨h1, _⟩
          exact absurd (by simpa using h1) hpre'
      | succ k =>
        constructor
        · intro h
          obtain ⟨a, ha, hak⟩ := Option.map_eq_some'.mp h
          obtain rfl : a = k := by omega
          obtain ⟨h1, h2⟩ := ih.mp ha
          refine ⟨by simpa using h1, ?_⟩
          intro j hj
          match j with
          | 0 => simpa using hpre'
          | Nat.succ m => simpa using h2 m (by omega)
        · rintro ⟨h1, h2⟩
          have hrest : strFind? p rest = some k := by
            refine ih.mpr ⟨by simpa using h1, ?_⟩
            intro m hm
            simpa using h2 (m + 1) (by omega)
          rw [hrest]; rfl

theorem strFindLast?_occurs {p s : List Char} {k : Nat}
    (h : strFindLast? p s = some k) : p <+: s.drop k := by
  induction s generalizing k with
  | nil =>
    by_cases hp : p = []
    · simp only [strFindLast?, if_pos hp] at h
      obtain rfl : k = 0 := by simpa using h.symm
      simp [hp]
    · simp [strFindLast?, hp] at h
  | cons c rest ih =>
    simp only [strFindLast?] at h
    cases hrec : strFindLast? p rest with
    | some m =>
      rw [hrec] at h
      obtain rfl : k = m + 1 := by simpa using h.symm
      simpa using ih hrec
    | none =>
      rw [hrec] at h
      by_cases hpre : p.isPrefixOf (c :: rest)
      · rw [if_pos hpre] at h
        obtain rfl : k = 0 := by simpa using h.symm
        simpa using List.isPrefixOf_iff_prefix.mp hpre
      · rw [if_neg hpre] at h
        cases h

theorem strFindLast?_eq_none_iff {p s : List Char} (hp : p ≠ []) :
    strFindLast? p s = none ↔ ∀ i, ¬ p <+: s.drop i := by
  induction s with
  | nil => simp [strFindLast?, hp, List.prefix_nil]
  | cons c rest ih =>
    simp only [strFindLast?]
    cases hrec : strFindLast? p rest with
    | some k =>
      apply iff_of_false (by simp)
      intro hAll
      exact hAll (k + 1) (by simpa using strFindLast?_occurs hrec)
    | none =>
      by_cases hpre : p.isPrefixOf (c :: rest)
      · have hpre' : p <+: (c :: rest) := List.isPrefixOf_iff_prefix.mp hpre
        rw [if_pos hpre]
        apply iff_of_false (by simp)
        intro hAll
        exact hAll 0 (by simpa using hpre')
      · have hpre' : ¬ p <+: (c :: rest) :=
          fun h => hpre (List.isPrefixOf_iff_prefix.mpr h)
        rw [if_neg hpre]
        apply iff_of_true rfl
        intro i
        match i with
        | 0 => simpa using hpre'
        | Nat.succ j => simpa using (ih.mp hrec) j

theorem strFindLast?_eq_some_iff {p s : List Char} {i : Nat} (hp : p ≠ []) :
    strFindLast? p s = some i ↔ (p <+: s.drop i ∧ ∀ j, i < j → ¬ p <+: s.drop j) := by
  induction s generalizing i with
  | nil =>
    simp [strFindLast?, hp, List.prefix_nil]
  | cons c rest ih =>
    simp only [strFindLast?]
    cases hrec : strFindLast? p rest with
    | some k =>
      obtain ⟨h1, h2⟩ := ih.mp hrec
      constructor
      · intro h
        obtain rfl : i = k + 1 := by simpa using h.symm
        refine ⟨by simpa using h1, ?_⟩
        intro j hj
        obtain ⟨m, rfl⟩ : ∃ m, j = m + 1 := ⟨j - 1, by omega⟩
        simpa using h2 m (by omega)
      · rintro ⟨g1, g2⟩
        rcases Nat.lt_trichotomy i (k + 1) with hlt | heq | hgt
        · exact absurd (by simpa using h1) (g2 (k + 1) hlt)
        · rw [heq]
        · obtain ⟨m, rfl⟩ : ∃ m, i = m + 1 := ⟨i - 1, by omega⟩
          exact absurd (by simpa using g1) (h2 m (by omega))
    | none =>
      have hnone := (strFindLast?_eq_none_iff hp).mp hrec
      by_cases hpre : p.isPrefixOf (c :: rest)
      · have hpre' : p <+: (c :: rest) := List.isPrefixOf_iff_prefix.mp hpre
        rw [if_pos hpre]
        constructor
        · intro h
          obtain rfl : i = 0 := by simpa using h.symm
          refine ⟨by simpa using hpre', ?_⟩
          intro j hj
          obtain ⟨m, rfl⟩ : ∃ m, j = m + 1 := ⟨j - 1, by omega⟩
          simpa using hnone m
        · rintro ⟨g1, g2⟩
          rcases Nat.eq_zero_or_pos i with rfl | hpos
          · rfl
          · obtain ⟨m, rfl⟩ : ∃ m, i = m + 1 := ⟨i - 1, by omega⟩
            exact absurd (by simpa using g1) (hnone m)
      · have hpre' : ¬ p <+: (c :: rest) :=
          fun h => hpre (List.isPrefixOf_iff_prefix.mpr h)
        rw [if_neg hpre]
        apply iff_of_false (by simp)
        rintro ⟨g1, -⟩
        rcases Nat.eq_zero_or_pos i with rfl | hpos
        · exact hpre' (by simpa using g1)
        · obtain ⟨m, rfl⟩ : ∃ m, i = m + 1 := ⟨i - 1, by omega⟩
          exact hnone m (by simpa using g1)

/-! Occurrence lemmas: every marker pattern begins with the character `<`,
so occurrences can only start where a `<` sits in the string. -/

theorem prefix_head_eq {p z : List Char} {a : Char} (hp : p.head? = some a)
    (h : p <+: z) : z.head? = some a := by
  obtain ⟨t, rfl⟩ := h
  cases p with
  | nil => cases hp
  | cons b q => simpa using hp

theorem noOcc_of_head_notMem {p s : List Char} {a : Char} (hp : p.head? = some a)
    (ha : a ∉ s) : NoOcc p s := by
  intro i h
  have hh := prefix_head_eq hp h
  exact ha (List.mem_of_mem_drop (List.mem_of_mem_head? hh))

theorem noOcc_append_left {p x y : List Char} {a : Char} (hp : p.head? = some a)
    (hx : a ∉ x) (hy : NoOcc p y) : NoOcc p (x ++ y) := by
  intro i h
  rw [List.drop_append_eq_append_drop] at h
  rcases Nat.lt_or_ge i x.length with hi | hi
  · have hne : x.drop i ≠ [] := by
      simp only [ne_eq, List.drop_eq_nil_iff]
      omega
    have hh := prefix_head_eq hp h
    rw [List.head?_append_of_ne_nil _ hne] at hh
    exact hx (List.mem_of_mem_drop (List.mem_of_mem_head? hh))
  · rw [List.drop_eq_nil_of_le hi] at h
    exact hy (i - x.length) (by simpa using h)

theorem noOcc_pos_after_tag {p t y : List Char} {a : Char} (hp : p.head? = some a)
    (ht : a ∉ t.tail) (hy : NoOcc p y) :
    ∀ i, 0 < i → ¬ p <+: (t ++ y).drop i := by
  intro i hpos h
  rw [List.drop_append_eq_append_drop] at h
  rcases Nat.lt_or_ge i t.length with hi | hi
  · have hne : t.drop i ≠ [] := by
      simp only [ne_eq, List.drop_eq_nil_iff]
      omega
    have hh := prefix_head_eq hp h
    rw [List.head?_append_of_ne_nil _ hne] at hh
    have key : t.drop i = t.tail.drop (i - 1) := by
      rw [← List.drop_one, List.drop_drop]
      congr 1
      omega
    rw [key] at hh
    exact ht (List.mem_of_mem_drop (List.mem_of_mem_head? hh))
  · rw [List.drop_eq_nil_of_le hi] at h
    exact hy (i - t.length) (by simpa using h)

theorem noOcc_append_tag {p t y : List Char} {a : Char} {k : Nat}
    (hp : p.head? = some a) (ht : a ∉ t.tail)
    (hk : k < p.length) (hk2 : k < t.length) (hne : p[k]? ≠ t[k]?)
    (hy : NoOcc p y) : NoOcc p (t ++ y) := by
  intro i h
  rcases Nat.eq_zero_or_pos i with rfl | hpos
  · simp only [List.drop_zero] at h
    apply hne
    obtain ⟨u, hu⟩ := h
    calc p[k]? = (p ++ u)[k]? := (List.getElem?_append_left hk).symm
    _ = (t ++ y)[k]? := by rw [hu]
    _ = t[k]? := List.getElem?_append_left hk2
  · exact noOcc_pos_after_tag hp ht hy i hpos h

theorem strFind?_append_tag {p x y : List Char} {a : Char} (hp : p.head? = some a)
    (hx : a ∉ x) (hocc : p <+: y) : strFind? p (x ++ y) = some x.length := by
  apply strFind?_eq_some_iff.mpr
  constructor
  · rw [List.drop_left]
    exact hocc
  · intro j hj hpre
    rw [List.drop_append_eq_append_drop] at hpre
    have hne : x.drop j ≠ [] := by
      simp only [ne_eq, List.drop_eq_nil_iff]
      omega
    have hh := prefix_head_eq hp hpre
    rw [List.head?_append_of_ne_nil _ hne] at hh
    exact hx (List.mem_of_mem_drop (List.mem_of_mem_head? hh))

theorem strFindLast?_append_tag {c m b : List Char} {a : Char} (hc : c.head? = some a)
    (hct : a ∉ c.tail) (hb : a ∉ b) (hcne : c ≠ []) :
    strFindLast? c (m ++ (c ++ b)) = some m.length := by
  apply (strFindLast?_eq_some_iff hcne).mpr
  constructor
  · rw [List.drop_left]
    exact List.prefix_append c b
  · intro j hj hpre
    rw [List.drop_append_eq_append_drop, List.drop_eq_nil_of_le (by omega)] at hpre
    simp only [List.nil_append] at hpre
    exact noOcc_pos_after_tag hc hct (noOcc_of_head_notMem hc hb)
      (j - m.length) (by omega) hpre

/-! Behaviour of the greedy substitution. -/

theorem re_sub_tag_fuel_id {o c repl s : List Char} (hc : c ≠ [])
    (h : NoOcc c s) : ∀ fuel, re_sub_tag_fuel o c repl fuel s = s := by
  intro fuel
  cases fuel with
  | zero => rfl
  | succ n =>
    cases hfind : strFind? o s with
    | none => simp only [re_sub_tag_fuel, hfind]
    | some i =>
      have hnone : strFindLast? c (s.drop (i + o.length)) = none := by
        rw [strFindLast?_eq_none_iff hc]
        intro j
        rw [List.drop_drop]
        exact h _
      simp only [re_sub_tag_fuel, hfind, hnone]

theorem re_sub_tag_of_no_open {o c repl s : List Char} (h : strFind? o s = none) :
    re_sub_tag o c repl s = s := by
  unfold re_sub_tag
  simp only [re_sub_tag_fuel, h]

theorem re_sub_tag_of_noOcc_open {o c repl s : List Char} (h : NoOcc o s) :
    re_sub_tag o c repl s = s :=
  re_sub_tag_of_no_open (strFind?_eq_none_iff.mpr h)

theorem re_sub_tag_of_no_close {o c repl s : List Char} {i : Nat}
    (hfind : strFind? o s = some i)
    (h : strFindLast? c (s.drop (i + o.length)) = none) :
    re_sub_tag o c repl s = s := by
  unfold re_sub_tag
  simp only [re_sub_tag_fuel, hfind, h]

theorem re_sub_tag_eq {o c repl s : List Char} {i j : Nat} (hc : c ≠ [])
    (hfind : strFind? o s = some i)
    (hlast : strFindLast? c (s.drop (i + o.length)) = some j) :
    re_sub_tag o c repl s
      = s.take i ++ repl ++ (s.drop (i + o.length)).drop (j + c.length) := by
  have hrem : NoOcc c ((s.drop (i + o.length)).drop (j + c.length)) := by
    intro m hpre
    rw [List.drop_drop] at hpre
    have h2 := ((strFindLast?_eq_some_iff hc).mp hlast).2
    have hlen : 0 < c.length := List.length_pos.mpr hc
    exact h2 (j + c.length + m) (by omega) hpre
  unfold re_sub_tag
  simp only [re_sub_tag_fuel, hfind, hlast]
  rw [re_sub_tag_fuel_id hc hrem]

theorem strFindLast?_rem_noOcc {c rest : List Char} {j : Nat} (hc : c ≠ [])
    (h : strFindLast? c rest = some j) : NoOcc c (rest.drop (j + c.length)) := by
  intro m hpre
  rw [List.drop_drop] at hpre
  have h2 := ((strFindLast?_eq_some_iff hc).mp h).2
  have hlen : 0 < c.length := List.length_pos.mpr hc
  exact h2 (j + c.length + m) (by omega) hpre

theorem prefix_append_right_iff {p w : List Char} (x : List Char)
    (h : p.length ≤ w.length) : p <+: (w ++ x) ↔ p <+: w :=
  ⟨fun hp => List.prefix_of_prefix_length_le hp (List.prefix_append w x) h,
   fun hp => hp.trans (List.prefix_append w x)⟩

/-- Re-substituting a tag already substituted with `o ++ d ++ c` is the
identity: the second pass matches exactly the substituted span again
(whatever `d` and the surrounding line are), because the close marker has
no nontrivial border and nothing matching it remains after the span. -/
theorem re_sub_tag_idempotent {o c d : List Char} (ho : o ≠ []) (hc : c ≠ [])
    (hborder : ∀ t ∈ List.range c.length, 0 < t → ¬ c.drop t <+: c)
    (s : List Char) :
    re_sub_tag o c (o ++ d ++ c) (re_sub_tag o c (o ++ d ++ c) s)
      = re_sub_tag o c (o ++ d ++ c) s := by
  cases hfind : strFind? o s with
  | none =>
    rw [re_sub_tag_of_no_open hfind, re_sub_tag_of_no_open hfind]
  | some i =>
    cases hlast : strFindLast? c (s.drop (i + o.length)) with
    | none =>
      rw [re_sub_tag_of_no_close hfind hlast, re_sub_tag_of_no_close hfind hlast]
    | some j =>
      have hocc1 : o <+: s.drop i := (strFind?_eq_some_iff.mp hfind).1
      have hmin1 : ∀ j', j' < i → ¬ o <+: s.drop j' := (strFind?_eq_some_iff.mp hfind).2
      have hi_le : i ≤ s.length := by
        by_contra hgt
        rw [List.drop_eq_nil_of_le (by omega)] at hocc1
        exact ho (List.prefix_nil.mp hocc1)
      have hrem := strFindLast?_rem_noOcc hc hlast
      obtain ⟨tail0, htail0⟩ := hocc1
      rw [re_sub_tag_eq hc hfind hlast]
      set rem := (s.drop (i + o.length)).drop (j + c.length) with hremdef
      have htklen : (s.take i).length = i := by
        rw [List.length_take]
        omega
      have hsplit : ∀ (X : List Char) (j' : Nat), j' < i →
          (s.take i ++ X).drop j' = (s.take i).drop j' ++ X := by
        intro X j' hj'
        rw [List.drop_append_eq_append_drop, Nat.sub_eq_zero_of_le (by omega),
          List.drop_zero]
      have hfind1 : strFind? o (s.take i ++ (o ++ (d ++ (c ++ rem)))) = some i := by
        apply strFind?_eq_some_iff.mpr
        refine ⟨?_, ?_⟩
        · rw [List.drop_left' htklen]
          exact List.prefix_append _ _
        · intro j' hj' hcontra
          apply hmin1 j' hj'
          have hs : s.drop j' = ((s.take i).drop j' ++ o) ++ tail0 := by
            conv_lhs => rw [← List.take_append_drop i s]
            rw [hsplit (s.drop i) j' hj', ← htail0]
            simp [List.append_assoc]
          rw [hsplit _ j' hj'] at hcontra
          rw [hs]
          have hw : o.length ≤ ((s.take i).drop j' ++ o).length := by simp
          rw [prefix_append_right_iff _ hw]
          rw [show (s.take i).drop j' ++ (o ++ (d ++ (c ++ rem)))
              = ((s.take i).drop j' ++ o) ++ (d ++ (c ++ rem)) by
            simp [List.append_assoc]] at hcontra
          exact (prefix_append_right_iff _ hw).mp hcontra
      have hdrop1 : (s.take i ++ (o ++ (d ++ (c ++ rem)))).drop (i + o.length)
          = d ++ (c ++ rem) := by
        rw [show s.take i ++ (o ++ (d ++ (c ++ rem)))
            = (s.take i ++ o) ++ (d ++ (c ++ rem)) by simp [List.append_assoc]]
        apply List.drop_left'
        simp [htklen]
      have hlast1 : strFindLast? c (d ++ (c ++ rem)) = some d.length := by
        apply (strFindLast?_eq_some_iff hc).mpr
        refine ⟨?_, ?_⟩
        · rw [List.drop_left]
          exact List.prefix_append _ _
        · intro j' hj' hcontra
          rcases Nat.lt_or_ge j' (d.length + c.length) with hlt | hge
          · have ht1 : 0 < j' - d.length := by omega
            have ht2 : j' - d.length < c.length := by omega
            have hidx : j' - d.length - c.length = 0 := by omega
            have hdc : (d ++ (c ++ rem)).drop j' = c.drop (j' - d.length) ++ rem := by
              rw [List.drop_append_eq_append_drop, List.drop_eq_nil_of_le (by omega),
                List.nil_append, List.drop_append_eq_append_drop, hidx, List.drop_zero]
            rw [hdc] at hcontra
            have hcd : c.drop (j' - d.length) <+: c.drop (j' - d.length) ++ rem :=
              List.prefix_append _ _
            have hin : c.drop (j' - d.length) <+: c :=
              List.prefix_of_prefix_length_le hcd hcontra
                (by rw [List.length_drop]; omega)
            exact hborder (j' - d.length) (List.mem_range.mpr ht2) ht1 hin
          · have hdc : (d ++ (c ++ rem)).drop j' = rem.drop (j' - d.length - c.length) := by
              rw [List.drop_append_eq_append_drop, List.drop_eq_nil_of_le (by omega),
                List.nil_append, List.drop_append_eq_append_drop,
                List.drop_eq_nil_of_le (by omega), List.nil_append]
            rw [hdc] at hcontra
            exact hrem _ hcontra
      have hs1assoc : s.take i ++ (o ++ d ++ c) ++ rem
          = s.take i ++ (o ++ (d ++ (c ++ rem))) := by
        simp [List.append_assoc]
      rw [hs1assoc, re_sub_tag_eq hc hfind1 (by rw [hdrop1]; exact hlast1)]
      rw [List.take_left' htklen, hdrop1]
      rw [show d ++ (c ++ rem) = (d ++ c) ++ rem by simp [List.append_assoc]]
      rw [List.drop_left' (by simp)]
      simp [List.append_assoc]

/-! Structured-line computations: a line carrying one well-formed tag whose
surroundings contain no `<` is rewritten exactly at the tag. -/

theorem re_sub_tag_structured {o c repl a m b : List Char}
    (ho : o.head? = some '<') (hc : c.head? = some '<') (hct : '<' ∉ c.tail)
    (hcne : c ≠ []) (ha : '<' ∉ a) (hb : '<' ∉ b) :
    re_sub_tag o c repl (a ++ (o ++ (m ++ (c ++ b)))) = a ++ repl ++ b := by
  have hfind : strFind? o (a ++ (o ++ (m ++ (c ++ b)))) = some a.length :=
    strFind?_append_tag ho ha (List.prefix_append _ _)
  have hdrop : (a ++ (o ++ (m ++ (c ++ b)))).drop (a.length + o.length)
      = m ++ (c ++ b) := by
    rw [show a ++ (o ++ (m ++ (c ++ b))) = (a ++ o) ++ (m ++ (c ++ b)) by
      simp [List.append_assoc]]
    exact List.drop_left' (by simp)
  have hlast : strFindLast? c ((a ++ (o ++ (m ++ (c ++ b)))).drop (a.length + o.length))
      = some m.length := by
    rw [hdrop]
    exact strFindLast?_append_tag hc hct hb hcne
  rw [re_sub_tag_eq hcne hfind hlast]
  rw [List.take_left' rfl, hdrop]
  rw [show m ++ (c ++ b) = (m ++ c) ++ b by simp [List.append_assoc]]
  rw [List.drop_left' (by simp)]

theorem noOcc_in_tagline {p o cl : List Char} (hp : p.head? = some '<')
    (hot : '<' ∉ o.tail) (hct : '<' ∉ cl.tail)
    (h1 : p[1]? ≠ o[1]?) (h1c : p[1]? ≠ cl[1]?)
    (hlen : 1 < p.length) (hleno : 1 < o.length) (hlenc : 1 < cl.length)
    {a x b : List Char} (ha : '<' ∉ a) (hx : '<' ∉ x) (hb : '<' ∉ b) :
    NoOcc p (a ++ (o ++ (x ++ (cl ++ b)))) := by
  apply noOcc_append_left hp ha
  apply noOcc_append_tag hp hot hlen hleno h1
  apply noOcc_append_left hp hx
  apply noOcc_append_tag hp hct hlen hlenc h1c
  exact noOcc_of_head_notMem hp hb

theorem sub_xmldbloc_of_noOcc {dbxml line : List Char}
    (h : NoOcc xmldbOpen line) : sub_xmldbloc dbxml line = line :=
  re_sub_tag_of_noOcc_open h

theorem sub_outfileloc_of_noOcc {outfile line : List Char}
    (h : NoOcc outFileOpen line) : sub_outfileloc outfile line = line :=
  re_sub_tag_of_noOcc_open h

theorem sub_queryfile_of_noOcc {inputdir cwd line : List Char}
    (h : NoOcc queryFileOpen line) : sub_queryfile inputdir cwd line = some line := by
  have hnone : strFind? queryFileOpen line = none := strFind?_eq_none_iff.mpr h
  simp only [sub_queryfile, hnone]

theorem sub_xmldbloc_structured {dbxml a m b : List Char}
    (ha : '<' ∉ a) (hb : '<' ∉ b) :
    sub_xmldbloc dbxml (a ++ (xmldbOpen ++ (m ++ (xmldbClose ++ b))))
      = a ++ dbxmlstr dbxml ++ b :=
  re_sub_tag_structured (by decide) (by decide) (by decide) (by decide) ha hb

theorem sub_outfileloc_structured {outfile a m b : List Char}
    (ha : '<' ∉ a) (hb : '<' ∉ b) :
    sub_outfileloc outfile (a ++ (outFileOpen ++ (m ++ (outFileClose ++ b))))
      = a ++ outfilestr outfile ++ b :=
  re_sub_tag_structured (by decide) (by decide) (by decide) (by decide) ha hb

theorem sub_queryfile_structured {inputdir cwd a g b : List Char}
    (ha : '<' ∉ a) (hb : '<' ∉ b) :
    sub_queryfile inputdir cwd (a ++ (queryFileOpen ++ (g ++ (queryFileClose ++ b))))
      = (abspath (os_path_basename g) (some inputdir) cwd).map
          (fun q => queryFileOpen ++ q ++ queryFileClose) := by
  have hfind : strFind? queryFileOpen (a ++ (queryFileOpen ++ (g ++ (queryFileClose ++ b))))
      = some a.length :=
    strFind?_append_tag (by decide) ha (List.prefix_append _ _)
  have hdrop : (a ++ (queryFileOpen ++ (g ++ (queryFileClose ++ b)))).drop
      (a.length + queryFileOpen.length) = g ++ (queryFileClose ++ b) := by
    rw [show a ++ (queryFileOpen ++ (g ++ (queryFileClose ++ b)))
        = (a ++ queryFileOpen) ++ (g ++ (queryFileClose ++ b)) by
      simp [List.append_assoc]]
    exact List.drop_left' (by simp)
  have hlast : strFindLast? queryFileClose (g ++ (queryFileClose ++ b)) = some g.length :=
    strFindLast?_append_tag (by decide) (by decide) hb (by decide)
  have htake : (g ++ (queryFileClose ++ b)).take g.length = g := List.take_left' rfl
  simp only [sub_queryfile, hfind, hdrop, hlast, htake]
  cases abspath (os_path_basename g) (some inputdir) cwd <;> rfl

/-! Lemmas about the path helpers. -/

theorem takeWhile_append_of_all {f : Char → Bool} {l z : List Char}
    (h : ∀ a ∈ l, f a = true) : (l ++ z).takeWhile f = l ++ z.takeWhile f := by
  induction l with
  | nil => simp
  | cons c cs ih =>
    simp only [List.cons_append, List.takeWhile_cons]
    rw [h c (by simp)]
    simp [ih (fun d hd => h d (by simp [hd]))]

theorem os_path_basename_no_slash (p : List Char) : '/' ∉ os_path_basename p := by
  intro h
  unfold os_path_basename at h
  rw [List.mem_reverse] at h
  have := List.mem_takeWhile_imp h
  simp at this

theorem os_path_basename_subset (p : List Char) : os_path_basename p ⊆ p := by
  intro a ha
  unfold os_path_basename at ha
  rw [List.mem_reverse] at ha
  have h2 : a ∈ p.reverse := (List.takeWhile_sublist _).subset ha
  simpa using h2

theorem os_path_basename_eq_self {p : List Char} (h : '/' ∉ p) :
    os_path_basename p = p := by
  unfold os_path_basename
  have hall : ∀ a ∈ p.reverse, (a != '/') = true := by
    intro a ha
    have hne : a ≠ '/' := fun e => h (e ▸ List.mem_reverse.mp ha)
    simpa using hne
  rw [List.takeWhile_eq_self_iff.mpr hall, List.reverse_reverse]

theorem os_path_basename_append {x y : List Char} (h : '/' ∉ y) :
    os_path_basename (x ++ '/' :: y) = y := by
  unfold os_path_basename
  rw [List.reverse_append]
  rw [show ('/' :: y).reverse = y.reverse ++ ['/'] from by simp]
  rw [List.append_assoc]
  have hall : ∀ a ∈ y.reverse, (a != '/') = true := by
    intro a ha
    have hne : a ≠ '/' := fun e => h (e ▸ List.mem_reverse.mp ha)
    simpa using hne
  rw [takeWhile_append_of_all hall]
  rw [show (['/'] ++ x.reverse).takeWhile (fun c => c != '/') = [] from by simp]
  simp

theorem os_path_join_basename {d bn : List Char} (h : '/' ∉ bn) :
    os_path_basename (os_path_join d bn) = bn := by
  unfold os_path_join
  by_cases h1 : bn.head? = some '/'
  · exact absurd (List.mem_of_mem_head? h1) h
  · rw [if_neg h1]
    by_cases h2 : d = [] ∨ d.getLast? = some '/'
    · rw [if_pos h2]
      rcases h2 with rfl | h2
      · simpa using os_path_basename_eq_self h
      · have hd : d ≠ [] := by
          rintro rfl
          simp at h2
        have hsplit : d.dropLast ++ [d.getLast hd] = d :=
          List.dropLast_append_getLast hd
        have hlast : d.getLast hd = '/' := by
          have := List.getLast?_eq_getLast d hd
          rw [this] at h2
          exact (Option.some.injEq _ _ ▸ h2 : _)
        rw [← hsplit, hlast, List.append_assoc]
        exact os_path_basename_append h
    · rw [if_neg h2]
      exact os_path_basename_append h

theorem abspath_join {bn : List Char} (d cwd : List Char) (hbn : bn ≠ [])
    (h : '/' ∉ bn) : abspath bn (some d) cwd = some (os_path_join d bn) := by
  cases bn with
  | nil => exact absurd rfl hbn
  | cons b0 rest =>
    have hb0 : ¬ b0 = '/' := fun e => h (by simp [e])
    have hpre : ¬ (['.', '/'].isPrefixOf (b0 :: rest)
        ∨ ['.', '.', '/'].isPrefixOf (b0 :: rest)) := by
      rintro (hp | hp)
      · exact h ((List.isPrefixOf_iff_prefix.mp hp).subset (by simp))
      · exact h ((List.isPrefixOf_iff_prefix.mp hp).subset (by simp))
    simp only [abspath, if_neg hb0, if_neg hpre]

theorem lt_notMem_os_path_join {d bn : List Char} (hd : '<' ∉ d) (hbn : '<' ∉ bn) :
    '<' ∉ os_path_join d bn := by
  intro hmem
  unfold os_path_join at hmem
  split at hmem
  · exact hbn hmem
  · split at hmem
    · rcases List.mem_append.mp hmem with hm | hm
      · exact hd hm
      · exact hbn hm
    · rcases List.mem_append.mp hmem with hm | hm
      · exact hd hm
      · rcases List.mem_cons.mp hm with hm2 | hm2
        · cases hm2
        · exact hbn hm2

theorem lt_notMem_os_path_basename {g : List Char} (hg : '<' ∉ g) :
    '<' ∉ os_path_basename g :=
  fun hm => hg (os_path_basename_subset g hm)

theorem re_sub_tag_of_not_matches {o c repl s : List Char}
    (h : matchesTag o c s = false) : re_sub_tag o c repl s = s := by
  cases hfind : strFind? o s with
  | none => exact re_sub_tag_of_no_open hfind
  | some i =>
    cases hlast : strFindLast? c (s.drop (i + o.length)) with
    | none => exact re_sub_tag_of_no_close hfind hlast
    | some j =>
      exfalso
      simp only [matchesTag, hfind, hlast, Option.isSome] at h
      exact absurd h (by decide)

theorem sub_queryfile_of_not_matches {inputdir cwd line : List Char}
    (h : matchesTag queryFileOpen queryFileClose line = false) :
    sub_queryfile inputdir cwd line = some line := by
  cases hfind : strFind? queryFileOpen line with
  | none => simp only [sub_queryfile, hfind]
  | some i =>
    cases hlast : strFindLast? queryFileClose (line.drop (i + queryFileOpen.length)) with
    | none => simp only [sub_queryfile, hfind, hlast]
    | some j =>
      exfalso
      simp only [matchesTag, hfind, hlast, Option.isSome] at h
      exact absurd h (by decide)

theorem flatten_replicate_singleton {α : Type} (n : Nat) (d : α) :
    (List.replicate n [d]).flatten = List.replicate n d := by
  induction n with
  | zero => rfl
  | succ k ih => simp [List.replicate_succ, ih]

theorem gcam_query_item_no_kill (i : Nat) (env : ItemEnv) :
    Ev.xvfbKill ∉ (gcam_query_item i env).1 := by
  unfold gcam_query_item
  cases env.rewriteResult with
  | error e => simp
  | ok name => cases env.unlinkRaises <;> simp

theorem gcam_query_loop_no_kill (beh : Nat → ItemEnv) :
    ∀ n i, Ev.xvfbKill ∉ (gcam_query_loop beh i n).1 := by
  intro n
  induction n with
  | zero => intro i; simp [gcam_query_loop]
  | succ k ih =>
    intro i
    simp only [gcam_query_loop]
    cases hr : (gcam_query_item i (beh i)).2 with
    | some e =>
      simpa using gcam_query_item_no_kill i (beh i)
    | none =>
      intro hmem
      rcases List.mem_append.mp (by simpa using hmem) with hm | hm
      · exact gcam_query_item_no_kill i (beh i) hm
      · exact ih (i + 1) hm

/-! Claim theorems. -/

/-- C9: the display identifier chosen by `gcam_query` — a
`random.randint(1,1024)` draw taken after perturbing the pseudo-random
state with the process identity — is an integer within `[1, 1024]` for
every pseudo-random state and process identity. -/
theorem display_number_in_range (state pid : Nat) :
    1 ≤ gcam_query_display state pid ∧ gcam_query_display state pid ≤ 1024 := by
  unfold gcam_query_display random_randint random_jumpahead
  have h := Nat.mod_lt (state + pid) (show 0 < 1024 + 1 - 1 by omega)
  omega

/-- C3: for every batch item, whatever the outcome of the invocation and
of the deletion itself, the temp file returned by `rewrite_query` is
deleted (the `finally` unlink runs) right after the engine invocation
returns or raises; and when rewriting raised, no file was bound to
`tempquery` and no deletion is attempted. -/
theorem temp_artifact_lifecycle (i : Nat) (env : ItemEnv) :
    (gcam_query_item i env).1
      = match env.rewriteResult with
        | .ok name => [Ev.rewriteEv i, Ev.invokeEv i, Ev.unlinkEv i name]
        | .error _ => [Ev.rewriteEv i] := by
  unfold gcam_query_item
  cases env.rewriteResult with
  | error e => rfl
  | ok name => cases env.unlinkRaises <;> rfl

/-- C8 counterexample: when the engine invocation raises (error 1) and the
`finally` deletion also raises (error 2), the error surfaced by the item is
the deletion error 2, not the original error 1 — Python's `finally`
replaces the in-flight exception, so the claim as stated is false. -/
theorem cleanup_error_masks_primary_cex :
    (gcam_query_item 0 ⟨.ok ['t'], some 1, some 2⟩).2 = some (PyErr.external 2)
    ∧ (gcam_query_item 0 ⟨.ok ['t'], some 1, some 2⟩).2 ≠ some (PyErr.external 1) := by
  exact ⟨rfl, by decide⟩

/-- C8 amended: when both the invocation and the subsequent temp-file
deletion fail, the error surfaced to the caller is the deletion failure,
which replaces (masks) the original invocation error; likewise a deletion
failure after a successful invocation surfaces the deletion error. -/
theorem cleanup_error_replaces_primary (i : Nat) (name : List Char)
    (inv : Option Nat) (e2 : Nat) :
    (gcam_query_item i ⟨.ok name, inv, some e2⟩).2 = some (PyErr.external e2) := rfl

/-- C2 (code bug): with a scalar string query and a database list of
length 2, no length-mismatch error is raised: the sequence test at source
line 133 checks `isinstance(batchqfiles, str)` instead of the database
argument, so `['d1','d2']` is treated as a scalar and wrapped as the
single item `[['d1','d2']]`, whose length 1 equals `len(qlist)`; the bad
value then flows on and the display server is started. -/
theorem length_check_misses_db_list :
    gcam_query_normalize (.str ['q']) (.list [['d', '1'], ['d', '2']]) (.str ['o'])
      = .ok ([['q']], [PyObj.list [['d', '1'], ['d', '2']]], [PyObj.str ['o']])
    ∧ (gcam_query_run (.str ['q']) (.list [['d', '1'], ['d', '2']]) (.str ['o']) 0 0
        (fun _ => ⟨.error 0, none, none⟩)).1.head?
      = some (Ev.xvfbStart (gcam_query_display 0 0)) :=
  ⟨rfl, rfl⟩

/-- C1 counterexample: a query sequence of length 2 with a scalar database
and a scalar output file raises the length-mismatch error instead of
broadcasting the output to length 2: the source wraps a scalar output as
`[outfiles]` without repeating it. -/
theorem scalar_output_not_broadcast_cex :
    gcam_query_normalize (.list [['q', '1'], ['q', '2']]) (.str ['d']) (.str ['o'])
      = .error () := rfl

/-- C1 amended: for a query sequence of length `L`, a scalar database and
a length-1 database sequence are each broadcast to length `L`, and a
full-length output sequence aligns; but a scalar output-file input is
wrapped as a length-1 list without broadcasting, so it aligns (and the
loop runs over `L` triples) only when `L = 1`, and otherwise the
length-mismatch error is raised. -/
theorem normalize_broadcast_amended :
    (∀ qs d outs, outs.length = qs.length →
      gcam_query_normalize (.list qs) (.str d) (.list outs)
        = .ok (qs, List.replicate qs.length (PyObj.str d), outs.map PyObj.str))
    ∧ (∀ qs d outs, outs.length = qs.length →
      gcam_query_normalize (.list qs) (.list [d]) (.list outs)
        = .ok (qs, List.replicate qs.length (PyObj.str d), outs.map PyObj.str))
    ∧ (∀ qs d o, gcam_query_normalize (.list qs) (.str d) (.str o)
        = if qs.length = 1 then
            .ok (qs, List.replicate qs.length (PyObj.str d), [PyObj.str o])
          else .error ()) := by
  refine ⟨?_, ?_, ?_⟩
  · intro qs d outs h
    have hred : gcam_query_normalize (.list qs) (.str d) (.list outs)
        = if (List.replicate qs.length (PyObj.str d)).length ≠ qs.length
            ∨ (outs.map PyObj.str).length ≠ qs.length then .error ()
          else .ok (qs, List.replicate qs.length (PyObj.str d), outs.map PyObj.str) := rfl
    rw [hred, if_neg (by simp [h])]
  · intro qs d outs h
    have hred : gcam_query_normalize (.list qs) (.list [d]) (.list outs)
        = if (((List.replicate qs.length [d]).flatten).map PyObj.str).length ≠ qs.length
            ∨ (outs.map PyObj.str).length ≠ qs.length then .error ()
          else .ok (qs, ((List.replicate qs.length [d]).flatten).map PyObj.str,
            outs.map PyObj.str) := rfl
    rw [hred, flatten_replicate_singleton, List.map_replicate,
      if_neg (by simp [h])]
  · intro qs d o
    have hred : gcam_query_normalize (.list qs) (.str d) (.str o)
        = if (List.replicate qs.length (PyObj.str d)).length ≠ qs.length
            ∨ [PyObj.str o].length ≠ qs.length then .error ()
          else .ok (qs, List.replicate qs.length (PyObj.str d), [PyObj.str o]) := rfl
    rw [hred]
    by_cases h1 : qs.length = 1
    · rw [if_neg (by simp [h1]), if_pos h1]
    · rw [if_pos (by simp; omega), if_neg h1]

/-- C1 amended witness: two queries, one database (as a length-1 list),
two outputs — broadcast succeeds with aligned length-2 triples. -/
theorem normalize_broadcast_amended_witness :
    gcam_query_normalize (.list [['q', '1'], ['q', '2']]) (.list [['d']])
        (.list [['o', '1'], ['o', '2']])
      = .ok ([['q', '1'], ['q', '2']],
          List.replicate ([['q', '1'], ['q', '2']] : List (List Char)).length
            (PyObj.str ['d']),
          [['o', '1'], ['o', '2']].map PyObj.str) :=
  normalize_broadcast_amended.2.1 [['q', '1'], ['q', '2']] ['d']
    [['o', '1'], ['o', '2']] rfl

/-- C10: `abspath` raises an `IndexError` (the `filename[0]` subscript) on
an empty filename, and returns a path without raising for every non-empty
filename, whatever the default path and working directory. -/
theorem abspath_empty_raises :
    (∀ dp cwd, abspath [] dp cwd = none)
    ∧ (∀ f dp cwd, f ≠ [] → (abspath f dp cwd).isSome = true) := by
  constructor
  · intro dp cwd
    rfl
  · intro f dp cwd hf
    cases f with
    | nil => exact absurd rfl hf
    | cons f0 rest =>
      simp only [abspath]
      split
      · rfl
      · cases dp with
        | none => rfl
        | some dpv =>
          split
          · rfl
          · split <;> rfl

/-- C10 witness: a concrete one-character filename resolves. -/
theorem abspath_empty_raises_witness :
    (abspath ['x'] (some ['d']) ['c']).isSome = true :=
  abspath_empty_raises.2 ['x'] (some ['d']) ['c'] (by decide)

/-- C4: the display-server kill runs exactly once per started session —
whatever the per-item behaviour, including every step raising — and zero
times when normalization fails before the session starts; moreover the
outer `finally` propagates the loop's error unchanged (or the mismatch
error when normalization failed). -/
theorem display_kill_exactly_once (batchqfiles dbxmlfiles outfiles : PyArg)
    (rngState pid : Nat) (beh : Nat → ItemEnv) :
    ((gcam_query_run batchqfiles dbxmlfiles outfiles rngState pid beh).1.count Ev.xvfbKill
      = match gcam_query_normalize batchqfiles dbxmlfiles outfiles with
        | .ok _ => 1
        | .error _ => 0)
    ∧ ((gcam_query_run batchqfiles dbxmlfiles outfiles rngState pid beh).2
      = match gcam_query_normalize batchqfiles dbxmlfiles outfiles with
        | .ok q => (gcam_query_loop beh 0 q.1.length).2
        | .error _ => some PyErr.runtimeMismatch) := by
  cases hn : gcam_query_normalize batchqfiles dbxmlfiles outfiles with
  | error u =>
    exact ⟨by simp [gcam_query_run, hn], by simp [gcam_query_run, hn]⟩
  | ok q =>
    obtain ⟨qlist, dbl, outl⟩ := q
    constructor
    · simp only [gcam_query_run, hn]
      rw [List.count_append, List.count_cons,
        List.count_eq_zero.mpr (gcam_query_loop_no_kill beh qlist.length 0)]
      simp
    · simp only [gcam_query_run, hn]

/-! Composition helpers for the per-line rewrite. -/

theorem rewrite_query_line_of_no_match {dbxml outfile inputdir cwd line : List Char}
    (h1 : matchesTag xmldbOpen xmldbClose line = false)
    (h2 : matchesTag outFileOpen outFileClose line = false)
    (h3 : matchesTag queryFileOpen queryFileClose line = false) :
    rewrite_query_line dbxml outfile inputdir cwd line = some line := by
  unfold rewrite_query_line sub_xmldbloc sub_outfileloc
  rw [re_sub_tag_of_not_matches h1, re_sub_tag_of_not_matches h2]
  exact sub_queryfile_of_not_matches h3

theorem rewrite_query_line_dbline {dbxml outfile inputdir cwd a m b : List Char}
    (ha : '<' ∉ a) (hb : '<' ∉ b) (hdb : '<' ∉ dbxml) :
    rewrite_query_line dbxml outfile inputdir cwd
        (a ++ (xmldbOpen ++ (m ++ (xmldbClose ++ b))))
      = some (a ++ dbxmlstr dbxml ++ b) := by
  unfold rewrite_query_line
  rw [sub_xmldbloc_structured ha hb]
  have hshape : a ++ dbxmlstr dbxml ++ b
      = a ++ (xmldbOpen ++ (dbxml ++ (xmldbClose ++ b))) := by
    simp [dbxmlstr, List.append_assoc]
  rw [hshape]
  rw [sub_outfileloc_of_noOcc (noOcc_in_tagline (by decide) (by decide) (by decide)
    (by decide) (by decide) (by decide) (by decide) (by decide) ha hdb hb)]
  rw [sub_queryfile_of_noOcc (noOcc_in_tagline (by decide) (by decide) (by decide)
    (by decide) (by decide) (by decide) (by decide) (by decide) ha hdb hb)]

theorem rewrite_query_line_outline {dbxml outfile inputdir cwd a m b : List Char}
    (ha : '<' ∉ a) (hm : '<' ∉ m) (hb : '<' ∉ b) (hout : '<' ∉ outfile) :
    rewrite_query_line dbxml outfile inputdir cwd
        (a ++ (outFileOpen ++ (m ++ (outFileClose ++ b))))
      = some (a ++ outfilestr outfile ++ b) := by
  unfold rewrite_query_line
  rw [sub_xmldbloc_of_noOcc (noOcc_in_tagline (by decide) (by decide) (by decide)
    (by decide) (by decide) (by decide) (by decide) (by decide) ha hm hb)]
  rw [sub_outfileloc_structured ha hb]
  have hshape : a ++ outfilestr outfile ++ b
      = a ++ (outFileOpen ++ (outfile ++ (outFileClose ++ b))) := by
    simp [outfilestr, List.append_assoc]
  rw [hshape]
  rw [sub_queryfile_of_noOcc (noOcc_in_tagline (by decide) (by decide) (by decide)
    (by decide) (by decide) (by decide) (by decide) (by decide) ha hout hb)]

theorem rewrite_query_line_qline {dbxml outfile inputdir cwd a g b : List Char}
    (ha : '<' ∉ a) (hg : '<' ∉ g) (hb : '<' ∉ b)
    (hbase : os_path_basename g ≠ []) :
    rewrite_query_line dbxml outfile inputdir cwd
        (a ++ (queryFileOpen ++ (g ++ (queryFileClose ++ b))))
      = some (queryFileOpen ++ os_path_join inputdir (os_path_basename g)
          ++ queryFileClose) := by
  unfold rewrite_query_line
  rw [sub_xmldbloc_of_noOcc (noOcc_in_tagline (by decide) (by decide) (by decide)
    (by decide) (by decide) (by decide) (by decide) (by decide) ha hg hb)]
  rw [sub_outfileloc_of_noOcc (noOcc_in_tagline (by decide) (by decide) (by decide)
    (by decide) (by decide) (by decide) (by decide) (by decide) ha hg hb)]
  rw [sub_queryfile_structured ha hb]
  rw [abspath_join inputdir cwd hbase (os_path_basename_no_slash g)]
  rfl

/-- C7: query-file reference resolution.  Inside the query-file branch the
tag content is stripped to its basename and resolved by `abspath`, and the
tag is rewritten with the result; `abspath` itself passes an absolute name
(leading `/`) through unchanged, resolves a name starting with `./` or
`../` against the process working directory via `os.path.abspath`, and
joins any other name onto the supplied base directory `inputdir`. -/
theorem query_file_reference_resolution :
    (∀ inputdir cwd a g b : List Char, '<' ∉ a → '<' ∉ b →
      sub_queryfile inputdir cwd (a ++ (queryFileOpen ++ (g ++ (queryFileClose ++ b))))
        = (abspath (os_path_basename g) (some inputdir) cwd).map
            (fun q => queryFileOpen ++ q ++ queryFileClose))
    ∧ (∀ f : List Char, ∀ dp : Option (List Char), ∀ cwd : List Char,
      f.head? = some '/' → abspath f dp cwd = some f)
    ∧ (∀ f : List Char, ∀ dp : Option (List Char), ∀ cwd : List Char,
      (['.', '/'].isPrefixOf f ∨ ['.', '.', '/'].isPrefixOf f) →
      abspath f dp cwd = some (os_path_abspath cwd f))
    ∧ (∀ f d cwd : List Char, f ≠ [] → f.head? ≠ some '/' →
      ¬ ['.', '/'].isPrefixOf f → ¬ ['.', '.', '/'].isPrefixOf f →
      abspath f (some d) cwd = some (os_path_join d f)) := by
  refine ⟨?_, ?_, ?_, ?_⟩
  · intro inputdir cwd a g b ha hb
    exact sub_queryfile_structured ha hb
  · intro f dp cwd hf
    cases f with
    | nil => cases hf
    | cons f0 rest =>
      have h0 : f0 = '/' := by simpa using hf
      subst h0
      simp [abspath]
  · intro f dp cwd hp
    cases f with
    | nil =>
      exfalso
      rcases hp with hp | hp <;> simp [List.isPrefixOf] at hp
    | cons f0 rest =>
      have hh : (f0 :: rest).head? = some '.' := by
        rcases hp with hp | hp
        · exact prefix_head_eq (by decide) (List.isPrefixOf_iff_prefix.mp hp)
        · exact prefix_head_eq (by decide) (List.isPrefixOf_iff_prefix.mp hp)
      have hdot : f0 = '.' := by simpa using hh
      have hslash : ¬ f0 = '/' := by rw [hdot]; decide
      cases dp with
      | none => simp only [abspath, if_neg hslash]
      | some d0 => simp only [abspath, if_neg hslash, if_pos hp]
  · intro f d cwd hne hhead hp1 hp2
    cases f with
    | nil => exact absurd rfl hne
    | cons f0 rest =>
      have hslash : ¬ f0 = '/' := fun e => hhead (by simp [e])
      have hor : ¬ (['.', '/'].isPrefixOf (f0 :: rest) = true
          ∨ ['.', '.', '/'].isPrefixOf (f0 :: rest) = true) := by
        rintro (h | h)
        · exact hp1 h
        · exact hp2 h
      simp only [abspath, if_neg hslash, if_neg hor]

/-- C7 witness: a relative reference with a directory part is stripped to
its basename and joined onto the base directory. -/
theorem query_file_reference_resolution_witness :
    sub_queryfile "/in".toList "/cwd".toList
        ("  ".toList ++ (queryFileOpen ++ ("rel/q.xml".toList ++ (queryFileClose ++ []))))
      = (abspath (os_path_basename "rel/q.xml".toList) (some "/in".toList)
          "/cwd".toList).map (fun q => queryFileOpen ++ q ++ queryFileClose) :=
  query_file_reference_resolution.1 "/in".toList "/cwd".toList "  ".toList
    "rel/q.xml".toList [] (by decide) (by decide)

/-- C6 counterexample: on the line `  <queryFile>a.xml</queryFile>` the
query-file branch replaces the whole line by the rebuilt tag, dropping the
two leading spaces — the rest of the line's content is not preserved. -/
theorem rewrite_targeted_cex :
    rewrite_query_line ['d'] ['o'] "/in".toList "/cwd".toList
        "  <queryFile>a.xml</queryFile>".toList
      = some "<queryFile>/in/a.xml</queryFile>".toList
    ∧ (some "<queryFile>/in/a.xml</queryFile>".toList
        ≠ some "  <queryFile>/in/a.xml</queryFile>".toList) :=
  ⟨rfl, by decide⟩

/-- C6 amended: lines matching none of the three tag patterns pass through
unchanged; on a database or output tag line only the tag span is rewritten
and the surrounding content of the line is preserved; but a line matching
the query-file pattern is replaced entirely by the rewritten query-file
tag — surrounding content on that line is dropped. -/
theorem rewrite_targeted_amended :
    (∀ dbxml outfile inputdir cwd line : List Char,
      matchesTag xmldbOpen xmldbClose line = false →
      matchesTag outFileOpen outFileClose line = false →
      matchesTag queryFileOpen queryFileClose line = false →
      rewrite_query_line dbxml outfile inputdir cwd line = some line)
    ∧ (∀ dbxml outfile inputdir cwd a m b : List Char,
      '<' ∉ a → '<' ∉ b → '<' ∉ dbxml →
      rewrite_query_line dbxml outfile inputdir cwd
          (a ++ (xmldbOpen ++ (m ++ (xmldbClose ++ b))))
        = some (a ++ dbxmlstr dbxml ++ b))
    ∧ (∀ dbxml outfile inputdir cwd a m b : List Char,
      '<' ∉ a → '<' ∉ m → '<' ∉ b → '<' ∉ outfile →
      rewrite_query_line dbxml outfile inputdir cwd
          (a ++ (outFileOpen ++ (m ++ (outFileClose ++ b))))
        = some (a ++ outfilestr outfile ++ b))
    ∧ (∀ dbxml outfile inputdir cwd a g b : List Char,
      '<' ∉ a → '<' ∉ g → '<' ∉ b → os_path_basename g ≠ [] →
      rewrite_query_line dbxml outfile inputdir cwd
          (a ++ (queryFileOpen ++ (g ++ (queryFileClose ++ b))))
        = some (queryFileOpen ++ os_path_join inputdir (os_path_basename g)
            ++ queryFileClose)) :=
  ⟨fun _ _ _ _ _ h1 h2 h3 => rewrite_query_line_of_no_match h1 h2 h3,
   fun _ _ _ _ _ _ _ ha hb hdb => rewrite_query_line_dbline ha hb hdb,
   fun _ _ _ _ _ _ _ ha hm hb hout => rewrite_query_line_outline ha hm hb hout,
   fun _ _ _ _ _ _ _ ha hg hb hbase => rewrite_query_line_qline ha hg hb hbase⟩

/-- C6 amended witness: a database tag line with leading spaces and a
trailing comment keeps its surroundings. -/
theorem rewrite_targeted_amended_witness :
    rewrite_query_line "D".toList "O".toList "/i".toList "/c".toList
        ("  ".toList ++ (xmldbOpen ++ ("old".toList ++ (xmldbClose ++ " t".toList))))
      = some ("  ".toList ++ dbxmlstr "D".toList ++ " t".toList) :=
  rewrite_targeted_amended.2.1 "D".toList "O".toList "/i".toList "/c".toList
    "  ".toList "old".toList " t".toList (by decide) (by decide) (by decide)

/-- C5 counterexample: with the output path `X</xmldbLocation>Y` the
substituted value plants a stray database close marker; on the second
pass the greedy database pattern matches a longer span and the result
changes, so the per-line substitution is not idempotent as claimed. -/
theorem rewrite_idempotent_cex :
    rewrite_query_line "D".toList "X</xmldbLocation>Y".toList "/in".toList
        "/cwd".toList "<xmldbLocation>a</xmldbLocation><outFile>b</outFile>".toList
      = some "<xmldbLocation>D</xmldbLocation><outFile>X</xmldbLocation>Y</outFile>".toList
    ∧ rewrite_query_line "D".toList "X</xmldbLocation>Y".toList "/in".toList
        "/cwd".toList
        "<xmldbLocation>D</xmldbLocation><outFile>X</xmldbLocation>Y</outFile>".toList
      = some "<xmldbLocation>D</xmldbLocation>Y</outFile>".toList
    ∧ ("<xmldbLocation>D</xmldbLocation><outFile>X</xmldbLocation>Y</outFile>".toList
        : List Char)
      ≠ "<xmldbLocation>D</xmldbLocation>Y</outFile>".toList :=
  ⟨rfl, rfl, by decide⟩

/-- C5 amended: idempotence holds in the intended cases but not in
general.  Each single-tag substitution is idempotent on every line and
every substituted value; and the full per-line substitution reproduces
its own output on lines holding one database tag, one output tag, or one
query-file tag, provided the substituted values and base directory do not
themselves introduce tag fragments (no `<` in them). -/
theorem rewrite_idempotent_amended :
    (∀ dbxml line : List Char,
      sub_xmldbloc dbxml (sub_xmldbloc dbxml line) = sub_xmldbloc dbxml line)
    ∧ (∀ outfile line : List Char,
      sub_outfileloc outfile (sub_outfileloc outfile line)
        = sub_outfileloc outfile line)
    ∧ (∀ dbxml outfile inputdir cwd a m b : List Char,
      '<' ∉ a → '<' ∉ b → '<' ∉ dbxml →
      (rewrite_query_line dbxml outfile inputdir cwd
          (a ++ (xmldbOpen ++ (m ++ (xmldbClose ++ b))))
        = some (a ++ dbxmlstr dbxml ++ b)
      ∧ rewrite_query_line dbxml outfile inputdir cwd (a ++ dbxmlstr dbxml ++ b)
        = some (a ++ dbxmlstr dbxml ++ b)))
    ∧ (∀ dbxml outfile inputdir cwd a m b : List Char,
      '<' ∉ a → '<' ∉ m → '<' ∉ b → '<' ∉ outfile →
      (rewrite_query_line dbxml outfile inputdir cwd
          (a ++ (outFileOpen ++ (m ++ (outFileClose ++ b))))
        = some (a ++ outfilestr outfile ++ b)
      ∧ rewrite_query_line dbxml outfile inputdir cwd (a ++ outfilestr outfile ++ b)
        = some (a ++ outfilestr outfile ++ b)))
    ∧ (∀ dbxml outfile inputdir cwd g : List Char,
      '<' ∉ g → '<' ∉ inputdir → os_path_basename g ≠ [] →
      (rewrite_query_line dbxml outfile inputdir cwd
          (queryFileOpen ++ (g ++ queryFileClose))
        = some (queryFileOpen ++ os_path_join inputdir (os_path_basename g)
            ++ queryFileClose)
      ∧ rewrite_query_line dbxml outfile inputdir cwd
          (queryFileOpen ++ (os_path_join inputdir (os_path_basename g)
            ++ queryFileClose))
        = some (queryFileOpen ++ os_path_join inputdir (os_path_basename g)
            ++ queryFileClose))) := by
  refine ⟨?_, ?_, ?_, ?_, ?_⟩
  · intro dbxml line
    exact re_sub_tag_idempotent (by decide) (by decide) (by decide) line
  · intro outfile line
    exact re_sub_tag_idempotent (by decide) (by decide) (by decide) line
  · intro dbxml outfile inputdir cwd a m b ha hb hdb
    refine ⟨rewrite_query_line_dbline ha hb hdb, ?_⟩
    have hshape : a ++ dbxmlstr dbxml ++ b
        = a ++ (xmldbOpen ++ (dbxml ++ (xmldbClose ++ b))) := by
      simp [dbxmlstr, List.append_assoc]
    rw [hshape, rewrite_query_line_dbline ha hb hdb, hshape]
  · intro dbxml outfile inputdir cwd a m b ha hm hb hout
    refine ⟨rewrite_query_line_outline ha hm hb hout, ?_⟩
    have hshape : a ++ outfilestr outfile ++ b
        = a ++ (outFileOpen ++ (outfile ++ (outFileClose ++ b))) := by
      simp [outfilestr, List.append_assoc]
    rw [hshape, rewrite_query_line_outline ha hout hb hout, hshape]
  · intro dbxml outfile inputdir cwd g hg hin hbase
    have hshape : queryFileOpen ++ (g ++ queryFileClose)
        = [] ++ (queryFileOpen ++ (g ++ (queryFileClose ++ ([] : List Char)))) := by
      simp
    have h1 : rewrite_query_line dbxml outfile inputdir cwd
        (queryFileOpen ++ (g ++ queryFileClose))
        = some (queryFileOpen ++ os_path_join inputdir (os_path_basename g)
            ++ queryFileClose) := by
      rw [hshape]
      exact rewrite_query_line_qline (by decide) hg (by decide) hbase
    refine ⟨h1, ?_⟩
    have hjb : os_path_basename (os_path_join inputdir (os_path_basename g))
        = os_path_basename g := os_path_join_basename (os_path_basename_no_slash g)
    have hjlt : '<' ∉ os_path_join inputdir (os_path_basename g) :=
      lt_notMem_os_path_join hin (lt_notMem_os_path_basename hg)
    have hshape2 : queryFileOpen ++ (os_path_join inputdir (os_path_basename g)
          ++ queryFileClose)
        = [] ++ (queryFileOpen ++ (os_path_join inputdir (os_path_basename g)
            ++ (queryFileClose ++ ([] : List Char)))) := by
      simp
    rw [hshape2]
    rw [rewrite_query_line_qline (by decide) hjlt (by decide)
      (by rw [hjb]; exact hbase)]
    rw [hjb]

/-- C5 amended witness: a rewritten database tag line with surroundings is
reproduced exactly by a second application. -/
theorem rewrite_idempotent_amended_witness :
    rewrite_query_line "D".toList "O".toList "/i".toList "/c".toList
        (" ".toList ++ dbxmlstr "D".toList ++ " ".toList)
      = some (" ".toList ++ dbxmlstr "D".toList ++ " ".toList) :=
  (rewrite_idempotent_amended.2.2.1 "D".toList "O".toList "/i".toList "/c".toList
    " ".toList "m".toList " ".toList (by decide) (by decide) (by decide)).2
